import Mathlib

/-!
# OpenIntel retrieval subsystem — verification development

Shallow embedding of the OpenIntel knowledge store (`src/index.js`):
the intel entry table, the optional vector side table, and the
operations `add`, `query`, `search`, `semantic`, `think` (hybrid
search), `reindex`, `addTrade`, `resolveTrade`.

External collaborators are modelled by parameters:
* the embedding gateway (`_embed`) is a function
  `gw : List String → Option (List (List ℚ))` — `none` is a failed
  call (network / non-success status), `some vs` a reply in input
  order;
* the vector index's nearest-neighbour reply is passed as a list of
  `(intel_id, distance)` pairs, ascending by distance, as the engine
  contract guarantees;
* SQL `LIKE` is modelled by `likeMatch` below: `%` matches any
  sequence, `_` any single character, every other character itself
  (case-sensitive matching, the contract the spec assumes of the
  storage engine);
* timestamps (`datetime('now')`) are `Nat` parameters, compared the
  way the TEXT column comparisons order them.

Scores and distances are `ℚ`; the JS arithmetic on them
(`0.7 * vec + 0.3`, `1 / (1 + distance)`) is exact at these
magnitudes, so rationals are a faithful model.
-/

namespace OpenIntel

/-! ## SQL LIKE -/

/-- The `%` wildcard: does the rest-of-pattern matcher `f` accept some
suffix of the subject? -/
def likeStar (f : List Char → Bool) : List Char → Bool
  | [] => f []
  | c :: s2 => f (c :: s2) || likeStar f s2

/-- SQL `LIKE` pattern matching (no ESCAPE clause is used anywhere in
the code): `%` matches any sequence of characters, `_` matches exactly
one character, any other pattern character matches itself. -/
def likeMatch : List Char → List Char → Bool
  | [], s => s.isEmpty
  | p :: ps, s =>
    if p = '%' then likeStar (likeMatch ps) s
    else
      match s with
      | [] => false
      | c :: s2 => (if p = '_' then true else c = p) && likeMatch ps s2

/-- `x LIKE pat` for strings: `sqlLike x pat`. -/
def sqlLike (x pat : String) : Bool :=
  likeMatch pat.data x.data

/-- The pattern the code builds for substring search: `'%' + text + '%'`. -/
def likePattern (text : String) : String :=
  "%" ++ text ++ "%"

/-- A string free of the two `LIKE` metacharacters. -/
def NoWild (t : String) : Prop :=
  '%' ∉ t.data ∧ '_' ∉ t.data

instance (t : String) : Decidable (NoWild t) := by
  unfold NoWild; infer_instance

/-- `col LIKE pat` on a nullable column: SQL `NULL LIKE pat` is not
true, so a missing `body`/`source` never matches. -/
def likeOpt (o : Option String) (pat : String) : Bool :=
  match o with
  | none => false
  | some x => sqlLike x pat

/-! ## Data model

`intel` rows (schema in `_init`), the `intel_vec` side table, and the
runtime capability flags held by the `OpenIntel` object. `entries` is
kept in rowid (insertion) order, which is the order a `SELECT` without
`ORDER BY` scans. -/

structure Entry where
  id : Nat
  category : String
  title : String
  body : Option String
  source : Option String
  tags : List String
  confidence : ℚ
  actionable : Bool
  metadata : String
  createdAt : Nat
  expiresAt : Option String
deriving DecidableEq

structure Store where
  entries : List Entry
  vectors : List (Nat × List ℚ)
  hasProvider : Bool
  vecLoaded : Bool
  nextId : Nat
deriving DecidableEq

/-- Well-formed store: ids are unique (`id INTEGER PRIMARY KEY`), as is
`intel_id` in the vector table. -/
def WF (s : Store) : Prop :=
  (s.entries.map Entry.id).Nodup ∧ (s.vectors.map Prod.fst).Nodup

/-- JSON string escaping as `JSON.stringify` performs it for the quote
and backslash characters (control-character escapes are not modelled;
no stored tag in any statement below contains one). -/
def jsonEscapeChar (c : Char) : List Char :=
  if c = '"' ∨ c = '\\' then ['\\', c] else [c]

def jsonEscape (s : String) : String :=
  ⟨(s.data.map jsonEscapeChar).flatten⟩

/-- `JSON.stringify` of a string array — the serialized form of the
`tags` column. -/
def serializeTags (ts : List String) : String :=
  "[" ++ String.intercalate "," (ts.map fun t => "\"" ++ jsonEscape t ++ "\"") ++ "]"

/-! ## Sort comparators

JS `Array.prototype.sort` with comparator `(a, b) => b.k - a.k` is a
stable descending sort on `k`; `ORDER BY created_at DESC` orders
newest first. Both are modelled with `List.insertionSort` (stable,
and agreeing with any stable sort on a total preorder). -/

/-- `ORDER BY created_at DESC`. -/
def newestFirst (a b : Entry) : Prop :=
  b.createdAt ≤ a.createdAt

instance : DecidableRel newestFirst :=
  fun a b => Nat.decLe _ _

instance : IsTotal Entry newestFirst :=
  ⟨fun a b => le_total b.createdAt a.createdAt⟩

instance : IsTrans Entry newestFirst :=
  ⟨fun _ _ _ h1 h2 => h2.trans h1⟩

/-- `sort((a, b) => b.score - a.score)` on score-carrying pairs. -/
def descBySnd {α : Type} (a b : α × ℚ) : Prop :=
  b.2 ≤ a.2

instance {α : Type} : DecidableRel (descBySnd (α := α)) :=
  fun a b => inferInstanceAs (Decidable (b.2 ≤ a.2))

instance {α : Type} : IsTotal (α × ℚ) descBySnd :=
  ⟨fun a b => le_total b.2 a.2⟩

instance {α : Type} : IsTrans (α × ℚ) descBySnd :=
  ⟨fun _ _ _ h1 h2 => h2.trans h1⟩

/-- JS `Set` insertion order on an id sequence: keep the first
occurrence of each id. -/
def dedupKeepFirst : List Nat → List Nat
  | [] => []
  | x :: xs => x :: (dedupKeepFirst xs).filter fun y => y ≠ x

/-! ## Errors

The code raises untyped `Error` values distinguished only by message;
each distinct raise site of the retrieval subsystem gets one
constructor. -/

inductive StoreError where
  /-- `'title is required'` (from `add`). -/
  | titleRequired
  /-- `'No embedding provider configured'` (from `semantic`, `reindex`,
  `_embed`). -/
  | noProvider
  /-- `'sqlite-vec not loaded — semantic search unavailable'`
  (from `semantic`). -/
  | vecUnavailableSemantic
  /-- `'sqlite-vec not loaded'` (from `reindex`). -/
  | vecUnavailableReindex
  /-- `'Embedding API <status>: <body>'` and other gateway failures. -/
  | providerFail (msg : String)
deriving DecidableEq

/-- Modelled from the spec: the §7 error taxonomy is not reified in the
code, so each raise site is classified by the spec's words.
`CapabilityError` — "vector index unavailable at call time for an
operation that requires it"; §4.5 additionally says semantic search
"fails with CapabilityError if no provider configured or Vector Index
unavailable". -/
def isCapabilityError : StoreError → Bool
  | .noProvider => true
  | .vecUnavailableSemantic => true
  | .vecUnavailableReindex => true
  | _ => false

/-- Modelled from the spec: §7 `ConfigurationError` — "an operation
that requires an embedding provider or vector capability was invoked
without one configured". -/
def isConfigurationError : StoreError → Bool
  | .noProvider => true
  | .vecUnavailableSemantic => true
  | .vecUnavailableReindex => true
  | _ => false

/-- Modelled from the spec: every raise site belongs to one of the §7
classes (`ValidationError`, `ConfigurationError`, `ProviderError`,
`CapabilityError`), so none of them is a bare generic error. -/
def isGenericError : StoreError → Bool
  | .titleRequired => false
  | .noProvider => false
  | .vecUnavailableSemantic => false
  | .vecUnavailableReindex => false
  | .providerFail _ => false

/-! ## Operations -/

/-- `query(category, {limit, since, tag})`. An empty-string `category`
or `tag` is falsy in JS and disables that filter, exactly like an
absent one. The tag pattern is `'%"' + tag + '"%'`. -/
def tagLikePattern (t : String) : String :=
  "%\"" ++ t ++ "\"%"

def tagMatches (t : String) (e : Entry) : Bool :=
  sqlLike (serializeTags e.tags) (tagLikePattern t)

def queryFn (s : Store) (category : String) (limit : Nat)
    (since : Option Nat) (tag : Option String) : List Entry :=
  let keep := fun (e : Entry) =>
    (if category = "" ∨ category = "all" then true
     else decide (e.category = category)) &&
    (match since with
     | none => true
     | some t => decide (t ≤ e.createdAt)) &&
    (match tag with
     | none => true
     | some t => if t = "" then true else tagMatches t e)
  ((List.insertionSort newestFirst (s.entries.filter keep)).take limit)

/-- `search(text, limit)`: `title LIKE ? OR body LIKE ? OR source
LIKE ?` with pattern `'%' + text + '%'`, newest first, `LIMIT ?`. -/
def searchMatches (text : String) (e : Entry) : Bool :=
  sqlLike e.title (likePattern text) ||
    likeOpt e.body (likePattern text) ||
    likeOpt e.source (likePattern text)

def search (s : Store) (text : String) (limit : Nat) : List Entry :=
  ((List.insertionSort newestFirst (s.entries.filter (searchMatches text))).take limit)

/-- The text composed for embedding at ingestion:
`` `${title}. ${body || ''}`.trim() ``. -/
def composeText (title : String) (body : Option String) : String :=
  (title ++ ". " ++ body.getD "").trim

/-- `semantic(queryText, limit)`. `embedQ` is the gateway's reply for
`[queryText]` in `"query"` mode; `nearest` is the vector index's reply
(at most `limit` pairs, ascending by distance). Rows are fetched with
`SELECT * FROM intel WHERE id IN (...)`, which scans in rowid order,
then re-sorted by `similarity = 1 / (1 + distance)` descending. -/
def semanticRun (s : Store) (embedQ : Option (List ℚ))
    (nearest : List (Nat × ℚ)) : Except StoreError (List (Entry × ℚ)) :=
  if !s.hasProvider then .error .noProvider
  else if !s.vecLoaded then .error .vecUnavailableSemantic
  else
    match embedQ with
    | none => .error (.providerFail "Embedding API")
    | some _ =>
      if nearest.isEmpty then .ok []
      else
        let ids := nearest.map Prod.fst
        let rows := s.entries.filter fun e => ids.contains e.id
        let withSim := rows.map fun e =>
          (e, 1 / (1 + ((nearest.lookup e.id).getD 0)))
        .ok (List.insertionSort descBySnd withSim)

/-- The keyword pool of `think`: `SELECT id, title, body FROM intel
WHERE title LIKE ? OR body LIKE ? LIMIT ?` with bound `limit * 2`
(`source` is not searched here, unlike `search`). -/
def kwPoolIds (s : Store) (q : String) (limit : Nat) : List Nat :=
  ((s.entries.filter fun e =>
      sqlLike e.title (likePattern q) || likeOpt e.body (likePattern q)).take
    (limit * 2)).map Entry.id

/-- The semantic pool of `think`: `none` when no provider is
configured, the vector index is unavailable, or the embed/nearest step
threw (all three leave `vecScores` empty in the code); `some vr` is the
index reply, at most `limit * 2` pairs. Each id is scored
`1 / (1 + distance)`. -/
def semPoolScores (semLeg : Option (List (Nat × ℚ))) : List (Nat × ℚ) :=
  match semLeg with
  | none => []
  | some vr => vr.map fun p => (p.1, 1 / (1 + p.2))

/-- Fusion: `0.7 * vecScore + kwScore` where `kwScore` is `0.3` for
keyword-pool members and the missing vector score defaults to `0`. -/
def finalScore (kwIds : List Nat) (vecScores : List (Nat × ℚ)) (i : Nat) : ℚ :=
  0.7 * ((vecScores.lookup i).getD 0) + (if kwIds.contains i then 0.3 else 0)

/-- `const allIds = new Set([...kwSet.keys(), ...vecScores.keys()])` —
the union pool, keyword ids first, in insertion order. -/
def thinkPool (s : Store) (q : String) (semLeg : Option (List (Nat × ℚ)))
    (limit : Nat) : List Nat :=
  dedupKeepFirst (kwPoolIds s q limit ++ (semPoolScores semLeg).map Prod.fst)

/-- The `scored` array: every pool id with its fused score. -/
def thinkScored (s : Store) (q : String) (semLeg : Option (List (Nat × ℚ)))
    (limit : Nat) : List (Nat × ℚ) :=
  (thinkPool s q semLeg limit).map fun i =>
    (i, finalScore (kwPoolIds s q limit) (semPoolScores semLeg) i)

/-- `scored.sort((a, b) => b.score - a.score)`. -/
def thinkSorted (s : Store) (q : String) (semLeg : Option (List (Nat × ℚ)))
    (limit : Nat) : List (Nat × ℚ) :=
  List.insertionSort descBySnd (thinkScored s q semLeg limit)

/-- `scored.slice(0, limit).map(s => s.id)`. -/
def thinkTopIds (s : Store) (q : String) (semLeg : Option (List (Nat × ℚ)))
    (limit : Nat) : List Nat :=
  ((thinkSorted s q semLeg limit).take limit).map Prod.fst

/-- `think(queryText, limit)`: fuse the two pools, sort descending by
score, keep the top `limit` ids, fetch their rows, attach the score,
and re-sort the fetched batch by score. -/
def think (s : Store) (q : String) (semLeg : Option (List (Nat × ℚ)))
    (limit : Nat) : List (Entry × ℚ) :=
  let sorted := thinkSorted s q semLeg limit
  let topIds := thinkTopIds s q semLeg limit
  if topIds.isEmpty then []
  else
    let rows := s.entries.filter fun e => topIds.contains e.id
    let withScores := rows.map fun e => (e, (sorted.lookup e.id).getD 0)
    List.insertionSort descBySnd withScores

/-- The field bag destructured by `add` — `none` models an absent
(JS `undefined`) field, and an empty `title` is falsy exactly like a
missing one. -/
structure AddData where
  title : String
  body : Option String := none
  source : Option String := none
  tags : Option (List String) := none
  confidence : Option ℚ := none
  actionable : Option Bool := none
  metadata : Option String := none
  expires : Option String := none
deriving DecidableEq

/-- The row `add` inserts: defaults `tags || []`, `confidence ?? 0.5`,
`actionable ? 1 : 0`, `metadata || null` serialized. -/
def newEntryOf (s : Store) (category : String) (d : AddData) (now : Nat) :
    Entry :=
  { id := s.nextId, category := category, title := d.title, body := d.body,
    source := d.source, tags := d.tags.getD [],
    confidence := d.confidence.getD (1 / 2),
    actionable := d.actionable.getD false,
    metadata := d.metadata.getD "\x7b\x7d",
    createdAt := now, expiresAt := d.expires }

/-- `add(category, data)`: insert the row, then best-effort embed.
`gw` is the embedding gateway for this call, `now` the insertion
timestamp. A gateway failure, an unavailable index, or a reply without
a vector all leave the entry stored with no vector and surface no
error. -/
def add (s : Store) (category : String) (d : AddData)
    (gw : List String → Option (List (List ℚ))) (now : Nat) :
    Except StoreError (Nat × Store) :=
  if d.title = "" then .error .titleRequired
  else
    let id := s.nextId
    let e := newEntryOf s category d now
    let s1 : Store := { s with entries := s.entries ++ [e], nextId := id + 1 }
    if s.hasProvider && s.vecLoaded then
      match gw [composeText d.title d.body] with
      | some (v :: _) =>
        .ok (id, { s1 with vectors := s1.vectors ++ [(id, v)] })
      | _ => .ok (id, s1)
    else .ok (id, s1)

/-- Whether `intel_vec` holds a row for this id. -/
def hasVec (s : Store) (id : Nat) : Bool :=
  ((s.vectors.lookup id)).isSome

/-- The left-anti-join `intel LEFT JOIN intel_vec ... WHERE
v.intel_id IS NULL`: entries with no vector, in scan order. -/
def missingOf (s : Store) : List Entry :=
  s.entries.filter fun e => !(hasVec s e.id)

/-- `INSERT OR REPLACE INTO intel_vec`. -/
def upsertVec (vecs : List (Nat × List ℚ)) (id : Nat) (v : List ℚ) :
    List (Nat × List ℚ) :=
  if (vecs.lookup id).isSome then
    vecs.map fun p => if p.1 = id then (id, v) else p
  else vecs ++ [(id, v)]

/-- Fueled worker for `chunks` (each step consumes at least one
element, so `l.length` fuel always suffices). -/
def chunksF {α : Type} : Nat → Nat → List α → List (List α)
  | 0, _, _ => []
  | fuel + 1, n, l =>
    match l with
    | [] => []
    | x :: xs => (x :: xs.take (n - 1)) :: chunksF fuel n (xs.drop (n - 1))

/-- `missing.slice(i, i + batchSize)` for `i = 0, 128, 256, ...`. -/
def chunks {α : Type} (n : Nat) (l : List α) : List (List α) :=
  chunksF l.length n l

def batchTexts (b : List Entry) : List String :=
  b.map fun e => composeText e.title e.body

/-- Whether a reindex batch lands: its one gateway call (on the texts
composed exactly as ingestion composes them) must succeed and return a
vector for every entry of the batch. -/
def batchSucceeds (gw : List String → Option (List (List ℚ)))
    (b : List Entry) : Bool :=
  match gw (batchTexts b) with
  | some vs => b.length ≤ vs.length
  | none => false

/-- One reindex batch: one gateway call; on success every vector of
the batch is upserted inside one transaction and the count grows by
the batch size; a gateway failure — or a reply missing some vector,
which makes an insert inside the transaction throw and roll the whole
batch back — skips the batch. -/
def runBatch (gw : List String → Option (List (List ℚ)))
    (acc : Nat × List (Nat × List ℚ)) (b : List Entry) :
    Nat × List (Nat × List ℚ) :=
  match gw (batchTexts b) with
  | some vs =>
    if b.length ≤ vs.length then
      (acc.1 + b.length,
        (b.zip vs).foldl (fun ve p => upsertVec ve p.1.id p.2) acc.2)
    else acc
  | none => acc

/-- `reindex()`: returns `(embedded, total, store')`. -/
def reindex (s : Store) (gw : List String → Option (List (List ℚ))) :
    Except StoreError (Nat × Nat × Store) :=
  if !s.hasProvider then .error .noProvider
  else if !s.vecLoaded then .error .vecUnavailableReindex
  else
    let missing := missingOf s
    if missing.isEmpty then .ok (0, 0, s)
    else
      let r := (chunks 128 missing).foldl (runBatch gw) (0, s.vectors)
      .ok (r.1, missing.length, { s with vectors := r.2 })

/-! ## Trade journal -/

structure TradeData where
  ticker : String
  seriesTicker : Option String := none
  direction : String
  contracts : Int
  entryPrice : ℚ
  thesis : Option String := none
  metadata : Option String := none
deriving DecidableEq

structure Trade where
  id : Nat
  ticker : String
  seriesTicker : Option String
  direction : String
  contracts : Int
  entryPrice : ℚ
  exitPrice : Option ℚ
  thesis : Option String
  outcome : Option String
  pnlCents : Option Int
  placedAt : Nat
  resolvedAt : Option Nat
  metadata : String
deriving DecidableEq

structure TradeStore where
  trades : List Trade
  nextId : Nat
deriving DecidableEq

def emptyTrades : TradeStore :=
  { trades := [], nextId := 1 }

/-- `addTrade(data)`: inserts an open trade — `outcome`, `pnl_cents`,
`exit_price` and `resolved_at` all start NULL. -/
def addTrade (ts : TradeStore) (d : TradeData) (now : Nat) :
    Nat × TradeStore :=
  let id := ts.nextId
  (id,
    { trades := ts.trades ++
        [{ id := id, ticker := d.ticker, seriesTicker := d.seriesTicker,
           direction := d.direction, contracts := d.contracts,
           entryPrice := d.entryPrice, exitPrice := none,
           thesis := d.thesis, outcome := none, pnlCents := none,
           placedAt := now, resolvedAt := none,
           metadata := d.metadata.getD "\x7b\x7d" }],
      nextId := id + 1 })

/-- `resolveTrade(id, outcome, pnl_cents)`: an unconditional
`UPDATE trades SET outcome = ?, pnl_cents = ?, resolved_at =
datetime('now') WHERE id = ?` — there is no guard on the current
`outcome`. -/
def resolveTrade (ts : TradeStore) (id : Nat) (outcome : String)
    (pnl : Int) (now : Nat) : TradeStore :=
  { ts with
    trades := ts.trades.map fun t =>
      if t.id = id then
        { t with outcome := some outcome, pnlCents := some pnl,
                 resolvedAt := some now }
      else t }

/-- The write operations the trade journal exposes. -/
inductive TradeOp where
  | addT (d : TradeData) (now : Nat)
  | resolveT (id : Nat) (outcome : String) (pnl : Int) (now : Nat)

def applyTradeOp (ts : TradeStore) : TradeOp → TradeStore
  | .addT d now => (addTrade ts d now).2
  | .resolveT id oc pnl now => resolveTrade ts id oc pnl now

/-! ## Specification-side characterizations

These restate, in terms of literal substring containment and explicit
score arithmetic, what the spec's sentences assert; the claim theorems
connect them to the operations above. -/

/-- Literal (case-sensitive) substring containment in title, body or
source — what the spec means by "contains text". A NULL column never
contains anything. -/
def entryMatchesText (text : String) (e : Entry) : Bool :=
  decide (text.data <:+: e.title.data) ||
    (match e.body with
     | none => false
     | some b => decide (text.data <:+: b.data)) ||
    (match e.source with
     | none => false
     | some c => decide (text.data <:+: c.data))

/-- `search(text, limit)` returns exactly the substring matches,
newest first, truncated to `limit`. -/
def SearchSpec (s : Store) (text : String) (limit : Nat) : Prop :=
  let res := search s text limit
  (∀ e ∈ res, e ∈ s.entries ∧ entryMatchesText text e = true) ∧
  res.Pairwise (fun a b => b.createdAt ≤ a.createdAt) ∧
  res.length = min limit (s.entries.countP (entryMatchesText text)) ∧
  (s.entries.countP (entryMatchesText text) ≤ limit →
    ∀ e ∈ s.entries, entryMatchesText text e = true → e ∈ res) ∧
  (∀ e ∈ s.entries, entryMatchesText text e = true → e ∉ res →
    ∀ r ∈ res, e.createdAt ≤ r.createdAt)

/-- The quoted tag string occurs literally in the serialized tag
list — what `query`'s tag filter actually tests (for wildcard-free
tags). -/
def quotedTagInfix (t : String) (e : Entry) : Bool :=
  decide (("\"" ++ t ++ "\"").data <:+: (serializeTags e.tags).data)

/-- The tag filter is raw substring matching of the quoted tag against
the serialized tag list, both as a characterization of `tagMatches`
and for every entry `query` returns. -/
def TagFilterSpec (s : Store) (t : String) (limit : Nat) : Prop :=
  (∀ e : Entry, tagMatches t e = true ↔ quotedTagInfix t e = true) ∧
  (∀ e ∈ queryFn s "all" limit none (some t), quotedTagInfix t e = true)

/-- The engine contract for the vector-index reply that `think`'s
semantic leg consumes: row ids are unique (primary key), at most
`limit * 2` rows (`LIMIT ?` bound), and every id references an
existing entry (a VectorRecord only exists for its IntelEntry). -/
def SemLegOK (s : Store) (limit : Nat)
    (semLeg : Option (List (Nat × ℚ))) : Prop :=
  ∀ vr, semLeg = some vr →
    (vr.map Prod.fst).Nodup ∧ vr.length ≤ limit * 2 ∧
    ∀ p ∈ vr, p.1 ∈ s.entries.map Entry.id

/-- Hybrid-search result contract: every returned entry carries the
additive-fusion score `0.7 * semantic + 0.3 * keyword-membership`,
drawn from the union pool, sorted descending, exactly the top
`limit`. -/
def ThinkSpec (s : Store) (q : String) (semLeg : Option (List (Nat × ℚ)))
    (limit : Nat) : Prop :=
  let pool := thinkPool s q semLeg limit
  let res := think s q semLeg limit
  let f := finalScore (kwPoolIds s q limit) (semPoolScores semLeg)
  (∀ pr ∈ res, pr.2 = f pr.1.id) ∧
  (∀ pr ∈ res, pr.1 ∈ s.entries ∧ pr.1.id ∈ pool) ∧
  res.Pairwise (fun a b => b.2 ≤ a.2) ∧
  res.length = min limit pool.length ∧
  (∀ i ∈ pool, i ∉ res.map (fun pr => pr.1.id) →
    ∀ pr ∈ res, f i ≤ pr.2)

/-- Semantic-search result contract on the success path: similarity is
`1 / (1 + distance)`, results are the fetched entries sorted
descending by similarity, and an empty index reply gives an empty
sequence, not an error. -/
def SemanticSpec (s : Store) (qv : List ℚ) (nearest : List (Nat × ℚ)) :
    Prop :=
  ∃ res, semanticRun s (some qv) nearest = .ok res ∧
    (nearest = [] → res = []) ∧
    (∀ pr ∈ res, pr.1 ∈ s.entries ∧
      ∃ d, nearest.lookup pr.1.id = some d ∧ pr.2 = 1 / (1 + d)) ∧
    (∀ e ∈ s.entries, e.id ∈ nearest.map Prod.fst → ∃ q2, (e, q2) ∈ res) ∧
    res.Pairwise (fun a b => b.2 ≤ a.2)

/-- Ingestion contract: the entry write lands and is returned
regardless of the embedding step; every degraded path (no provider, no
index, failed or empty gateway reply) leaves the vector table
untouched; no path other than a missing title errors. -/
def AddSpec (s : Store) (category : String) (d : AddData)
    (gw : List String → Option (List (List ℚ))) (now : Nat) : Prop :=
  ∃ s2, add s category d gw now = .ok (s.nextId, s2) ∧
    s2.entries = s.entries ++ [newEntryOf s category d now] ∧
    s2.nextId = s.nextId + 1 ∧
    s2.hasProvider = s.hasProvider ∧
    s2.vecLoaded = s.vecLoaded ∧
    (∀ i, i ≠ s.nextId → s2.vectors.lookup i = s.vectors.lookup i) ∧
    (s.hasProvider = false ∨ s.vecLoaded = false ∨
        gw [composeText d.title d.body] = none ∨
        gw [composeText d.title d.body] = some [] →
      s2.vectors = s.vectors)

/-- Reindex contract: total is the size of the left-anti-join; the
batches are the 128-chunks of it; a successful batch fully lands, a
failed batch leaves every one of its entries unembedded (atomicity +
skip-and-continue); embedded counts exactly the successful batches;
existing vectors survive. -/
def ReindexSpec (s : Store) (gw : List String → Option (List (List ℚ))) :
    Prop :=
  let missing := missingOf s
  let bs := chunks 128 missing
  ∃ emb s2,
    reindex s gw = .ok (emb, missing.length, s2) ∧
    (missing = [] → emb = 0 ∧ missing.length = 0 ∧ s2 = s) ∧
    bs.flatten = missing ∧
    (∀ b ∈ bs, b ≠ [] ∧ b.length ≤ 128) ∧
    emb = ((bs.filter (batchSucceeds gw)).map List.length).sum ∧
    s2.entries = s.entries ∧
    s2.hasProvider = s.hasProvider ∧
    s2.vecLoaded = s.vecLoaded ∧
    (∀ b ∈ bs, batchSucceeds gw b = true → ∀ e ∈ b, hasVec s2 e.id = true) ∧
    (∀ b ∈ bs, batchSucceeds gw b = false → ∀ e ∈ b, hasVec s2 e.id = false) ∧
    (∀ i : Nat, hasVec s i = true → hasVec s2 i = true)

/-- Error-path contract when the vector index is unavailable: the
exact raise sites of `semantic` and `reindex`, their spec
classification (never generic), and keyword `search` still honouring
its substring contract. -/
def ErrorSpec (s : Store) (embedQ : Option (List ℚ))
    (nearest : List (Nat × ℚ)) (gw : List String → Option (List (List ℚ)))
    (text : String) (limit : Nat) : Prop :=
  (s.hasProvider = true →
    semanticRun s embedQ nearest = .error .vecUnavailableSemantic ∧
    reindex s gw = .error .vecUnavailableReindex) ∧
  (s.hasProvider = false →
    semanticRun s embedQ nearest = .error .noProvider ∧
    reindex s gw = .error .noProvider) ∧
  (∀ e, semanticRun s embedQ nearest = .error e →
    isCapabilityError e = true ∧ isGenericError e = false) ∧
  (∀ e, reindex s gw = .error e →
    isConfigurationError e = true ∧ isGenericError e = false) ∧
  (∀ s2 : Store, s2.hasProvider = false →
    semanticRun s2 embedQ nearest = .error .noProvider ∧
    isCapabilityError .noProvider = true) ∧
  SearchSpec s text limit

/-- Trade lifecycle contract as the code realizes it: created open;
`resolveTrade` stamps outcome, pnl and the resolved timestamp on the
targeted trade; and no journal operation ever re-opens a resolved
trade (its `outcome` stays non-null), although a second `resolveTrade`
may overwrite the stamped values. -/
def TradeLifecycleSpec (ts : TradeStore) (d : TradeData) (now : Nat)
    (id : Nat) (oc : String) (pnl : Int) (now2 : Nat) (op : TradeOp) :
    Prop :=
  (∃ tr, (addTrade ts d now).2.trades = ts.trades ++ [tr] ∧
    tr.outcome = none ∧ tr.pnlCents = none ∧ tr.resolvedAt = none ∧
    tr.id = ts.nextId) ∧
  (∀ t ∈ ts.trades, t.id = id →
    { t with outcome := some oc, pnlCents := some pnl,
             resolvedAt := some now2 } ∈ (resolveTrade ts id oc pnl now2).trades) ∧
  (∀ t ∈ ts.trades, t.outcome.isSome = true →
    ∃ t2 ∈ (applyTradeOp ts op).trades, t2.id = t.id ∧ t2.outcome.isSome = true)

/-! ## Concrete fixtures for counterexamples and witnesses -/

def entryAXB : Entry :=
  { id := 1, category := "market", title := "aXb", body := none,
    source := none, tags := [], confidence := 1, actionable := false,
    metadata := "\x7b\x7d", createdAt := 1, expiresAt := none }

def storeAXB : Store :=
  { entries := [entryAXB], vectors := [], hasProvider := false,
    vecLoaded := false, nextId := 2 }

def entryTagAXB : Entry :=
  { id := 1, category := "market", title := "tagged", body := none,
    source := none, tags := ["aXb"], confidence := 1,
    actionable := false, metadata := "\x7b\x7d", createdAt := 1,
    expiresAt := none }

def storeTagAXB : Store :=
  { entries := [entryTagAXB], vectors := [], hasProvider := false,
    vecLoaded := false, nextId := 2 }

def entryFed : Entry :=
  { id := 1, category := "newsletter", title := "Morning Brew digest",
    body := some "Fed rate cut expected", source := none,
    tags := ["fed", "macro"], confidence := 1, actionable := false,
    metadata := "\x7b\x7d", createdAt := 1, expiresAt := none }

def storeFed : Store :=
  { entries := [entryFed], vectors := [], hasProvider := false,
    vecLoaded := false, nextId := 2 }

def entryOne : Entry :=
  { id := 1, category := "market", title := "Test signal",
    body := some "AAPL looking strong", source := none, tags := ["AAPL"],
    confidence := 1, actionable := false, metadata := "\x7b\x7d",
    createdAt := 1, expiresAt := none }

/-- A store with vector capability and one unembedded entry. -/
def storeOne : Store :=
  { entries := [entryOne], vectors := [], hasProvider := true,
    vecLoaded := true, nextId := 2 }

/-- A gateway whose every call fails. -/
def gwFailAll : List String → Option (List (List ℚ)) :=
  fun _ => none

/-- A gateway that always replies with one (degenerate) vector per
input text. -/
def gwConstVec : List String → Option (List (List ℚ)) :=
  fun texts => some (texts.map fun _ => [0])

def tradeDataAAPL : TradeData :=
  { ticker := "AAPL", direction := "long", contracts := 100,
    entryPrice := 185, thesis := some "Earnings momentum" }

def tradeStore0 : TradeStore :=
  (addTrade emptyTrades tradeDataAAPL 1).2

def tradeStore1 : TradeStore :=
  resolveTrade tradeStore0 1 "win" 350 2

def tradeStore2 : TradeStore :=
  resolveTrade tradeStore1 1 "loss" (-100) 3

/-- A minimal valid field bag for `add`. -/
def addDataT : AddData :=
  { title := "T" }

/-- The store after a fully successful reindex of `storeOne`. -/
def storeOneEmbedded : Store :=
  { storeOne with vectors := [(1, [0])] }

end OpenIntel

deriving instance DecidableEq for Except

namespace OpenIntel

/-! ## Lemmas about LIKE -/

lemma likeMatch_nil (s : List Char) : likeMatch [] s = s.isEmpty := by
  simp [likeMatch]

lemma likeMatch_pct (ps : List Char) (s : List Char) :
    likeMatch ('%' :: ps) s = likeStar (likeMatch ps) s := by
  rw [likeMatch.eq_def]; simp

/-- `likeStar f` accepts exactly the subjects with an accepted
suffix. -/
lemma likeStar_iff (f : List Char → Bool) :
    ∀ s, likeStar f s = true ↔ ∃ s2, s2 <:+ s ∧ f s2 = true := by
  intro s
  induction s with
  | nil =>
    simp only [likeStar]
    constructor
    · intro h; exact ⟨[], List.suffix_rfl, h⟩
    · rintro ⟨s2, hs2, hm⟩
      rw [List.suffix_nil.mp hs2] at hm; exact hm
  | cons c s2 ih =>
    simp only [likeStar, Bool.or_eq_true, ih]
    constructor
    · rintro (h | ⟨s3, hs3, hm⟩)
      · exact ⟨c :: s2, List.suffix_rfl, h⟩
      · exact ⟨s3, hs3.trans (List.suffix_cons c s2), hm⟩
    · rintro ⟨s3, hs3, hm⟩
      rcases List.suffix_cons_iff.mp hs3 with h | h
      · exact Or.inl (h ▸ hm)
      · exact Or.inr ⟨s3, h, hm⟩

lemma likeMatch_cons_of_ne (p : Char) (ps : List Char) (s : List Char)
    (hp : p ≠ '%') :
    likeMatch (p :: ps) s =
      (match s with
       | [] => false
       | c :: s2 => (if p = '_' then true else c = p) && likeMatch ps s2) := by
  rw [likeMatch.eq_def]; simp [hp]

/-- A wildcard-free pattern matches exactly itself. -/
lemma likeMatch_of_noWild (p : List Char) (hp1 : '%' ∉ p) (hp2 : '_' ∉ p) :
    ∀ s, likeMatch p s = true ↔ p = s := by
  induction p with
  | nil =>
    intro s
    cases s <;> simp [likeMatch_nil]
  | cons c ps ih =>
    intro s
    have hc1 : c ≠ '%' := fun h => hp1 (h ▸ List.mem_cons_self c ps)
    have hc2 : c ≠ '_' := fun h => hp2 (h ▸ List.mem_cons_self c ps)
    have hps1 : '%' ∉ ps := fun h => hp1 (List.mem_cons_of_mem _ h)
    have hps2 : '_' ∉ ps := fun h => hp2 (List.mem_cons_of_mem _ h)
    rw [likeMatch_cons_of_ne c ps s hc1]
    cases s with
    | nil => simp
    | cons d s2 =>
      simp only [if_neg hc2, Bool.and_eq_true, decide_eq_true_eq,
        List.cons.injEq, ih hps1 hps2 s2]
      constructor
      · rintro ⟨h1, h2⟩; exact ⟨h1.symm, h2⟩
      · rintro ⟨h1, h2⟩; exact ⟨h1.symm, h2⟩

/-- A pattern starting with `%` matches `s` iff the rest matches some
suffix of `s`. -/
lemma likeMatch_pct_iff (ps : List Char) :
    ∀ s, likeMatch ('%' :: ps) s = true ↔
      ∃ s2, s2 <:+ s ∧ likeMatch ps s2 = true := by
  intro s
  rw [likeMatch_pct]
  exact likeStar_iff (likeMatch ps) s

/-- For wildcard-free `t`, the pattern `t ++ "%"` matches `s` iff `t`
is a prefix of `s`. -/
lemma likeMatch_append_pct (t : List Char) (ht1 : '%' ∉ t) (ht2 : '_' ∉ t) :
    ∀ s, likeMatch (t ++ ['%']) s = true ↔ t <+: s := by
  induction t with
  | nil =>
    intro s
    simp only [List.nil_append]
    rw [likeMatch_pct_iff]
    constructor
    · intro _; exact List.nil_prefix
    · intro _
      exact ⟨[], List.nil_suffix, by simp [likeMatch_nil]⟩
  | cons c ts ih =>
    intro s
    have hc1 : c ≠ '%' := fun h => ht1 (h ▸ List.mem_cons_self c ts)
    have hc2 : c ≠ '_' := fun h => ht2 (h ▸ List.mem_cons_self c ts)
    have hts1 : '%' ∉ ts := fun h => ht1 (List.mem_cons_of_mem _ h)
    have hts2 : '_' ∉ ts := fun h => ht2 (List.mem_cons_of_mem _ h)
    rw [List.cons_append, likeMatch_cons_of_ne c _ s hc1]
    cases s with
    | nil =>
      simp only [Bool.false_eq_true, false_iff]
      intro h
      exact List.not_mem_nil c (h.subset (List.mem_cons_self c ts))
    | cons d s2 =>
      simp only [if_neg hc2, Bool.and_eq_true, decide_eq_true_eq, ih hts1 hts2 s2,
        List.cons_prefix_cons]
      constructor
      · rintro ⟨h1, h2⟩; exact ⟨h1.symm, h2⟩
      · rintro ⟨h1, h2⟩; exact ⟨h1.symm, h2⟩

/-- Main bridge: for wildcard-free `t`, the pattern `"%" ++ t ++ "%"`
matches `s` iff `t` occurs in `s` as a literal substring. -/
lemma likeMatch_infix (t s : List Char) (ht1 : '%' ∉ t) (ht2 : '_' ∉ t) :
    likeMatch ('%' :: (t ++ ['%'])) s = true ↔ t <:+: s := by
  rw [likeMatch_pct_iff]
  constructor
  · rintro ⟨s2, hs2, hm⟩
    exact List.infix_iff_prefix_suffix.mpr
      ⟨s2, (likeMatch_append_pct t ht1 ht2 s2).mp hm, hs2⟩
  · intro h
    rcases List.infix_iff_prefix_suffix.mp h with ⟨s2, hpre, hsuf⟩
    exact ⟨s2, hsuf, (likeMatch_append_pct t ht1 ht2 s2).mpr hpre⟩

lemma likePattern_data (t : String) :
    (likePattern t).data = '%' :: (t.data ++ ['%']) := by
  simp [likePattern, String.data_append]

/-- String-level bridge: for wildcard-free `text`,
`x LIKE '%text%'` iff `text` is a literal substring of `x`. -/
lemma sqlLike_likePattern_iff (x text : String) (h : NoWild text) :
    sqlLike x (likePattern text) = true ↔ text.data <:+: x.data := by
  rw [sqlLike, likePattern_data]
  exact likeMatch_infix text.data x.data h.1 h.2

/-! ## Lemmas about sorting and dedup -/

lemma pairwise_sort_newestFirst (l : List Entry) :
    (List.insertionSort newestFirst l).Pairwise
      (fun a b => b.createdAt ≤ a.createdAt) :=
  List.sorted_insertionSort newestFirst l

lemma pairwise_sort_descBySnd {α : Type} (l : List (α × ℚ)) :
    (List.insertionSort descBySnd l).Pairwise (fun a b => b.2 ≤ a.2) :=
  List.sorted_insertionSort descBySnd l

lemma mem_sort {α : Type} {r : α → α → Prop} [DecidableRel r] {l : List α}
    {a : α} : a ∈ List.insertionSort r l ↔ a ∈ l :=
  (List.perm_insertionSort r l).mem_iff

lemma length_sort {α : Type} (r : α → α → Prop) [DecidableRel r]
    (l : List α) : (List.insertionSort r l).length = l.length :=
  (List.perm_insertionSort r l).length_eq

/-- What survives `take k` of a list sorted pairwise by `R` dominates
everything dropped. -/
lemma pairwise_take_drop {α : Type} {R : α → α → Prop} {l : List α}
    (h : l.Pairwise R) (k : Nat) :
    ∀ a ∈ l.take k, ∀ b ∈ l.drop k, R a b := by
  have h2 : (l.take k ++ l.drop k).Pairwise R := by
    rwa [List.take_append_drop]
  exact (List.pairwise_append.mp h2).2.2

/-! ## Lemmas about association-list lookup -/

lemma lookup_isSome_iff {β : Type} (l : List (Nat × β)) (k : Nat) :
    (l.lookup k).isSome = true ↔ k ∈ l.map Prod.fst := by
  induction l with
  | nil => simp [List.lookup]
  | cons p l ih =>
    obtain ⟨a, b⟩ := p
    by_cases hk : k = a
    · subst hk
      simp [List.lookup]
    · have hb : (k == a) = false := by simp [hk]
      simp [List.lookup, hb, ih, hk]

lemma mem_of_lookup_eq_some {β : Type} {l : List (Nat × β)} {k : Nat}
    {v : β} (h : l.lookup k = some v) : (k, v) ∈ l := by
  induction l with
  | nil => simp [List.lookup] at h
  | cons p l ih =>
    obtain ⟨a, b⟩ := p
    by_cases hk : k = a
    · subst hk
      simp [List.lookup] at h
      subst h
      exact List.mem_cons_self _ _
    · have hb : (k == a) = false := by simp [hk]
      simp [List.lookup, hb] at h
      exact List.mem_cons_of_mem _ (ih h)

lemma lookup_of_mem_nodup {β : Type} {l : List (Nat × β)}
    (hn : (l.map Prod.fst).Nodup) {k : Nat} {v : β} (h : (k, v) ∈ l) :
    l.lookup k = some v := by
  induction l with
  | nil => simp at h
  | cons p l ih =>
    obtain ⟨a, b⟩ := p
    rcases List.mem_cons.mp h with h1 | h1
    · obtain ⟨rfl, rfl⟩ := Prod.mk.injEq .. ▸ h1
      injection h1 with h2 h3
      simp [List.lookup]
    · have hk : k ≠ a := by
        intro hk
        subst hk
        have : k ∈ l.map Prod.fst := List.mem_map.mpr ⟨(k, v), h1, rfl⟩
        exact (List.nodup_cons.mp hn).1 this
      have hb : (k == a) = false := by simp [hk]
      simp [List.lookup, hb]
      exact ih (List.nodup_cons.mp hn).2 h1

lemma lookup_append_single {β : Type} (l : List (Nat × β)) (j : Nat)
    (v : β) {i : Nat} (h : i ≠ j) :
    (l ++ [(j, v)]).lookup i = l.lookup i := by
  induction l with
  | nil =>
    have hb : (i == j) = false := by simp [h]
    simp [List.lookup, hb]
  | cons p l ih =>
    obtain ⟨a, b⟩ := p
    by_cases hia : i = a
    · subst hia
      simp [List.lookup]
    · have hb : (i == a) = false := by simp [hia]
      simp [List.lookup, hb, ih]

lemma mem_dedupKeepFirst (a : Nat) (l : List Nat) :
    a ∈ dedupKeepFirst l ↔ a ∈ l := by
  induction l with
  | nil => simp [dedupKeepFirst]
  | cons x xs ih =>
    rw [dedupKeepFirst]
    constructor
    · intro h
      rcases List.mem_cons.mp h with h | h
      · exact h ▸ List.mem_cons_self x xs
      · exact List.mem_cons_of_mem _ (ih.mp (List.mem_filter.mp h).1)
    · intro h
      rcases List.mem_cons.mp h with h | h
      · exact h ▸ List.mem_cons_self _ _
      · by_cases hax : a = x
        · exact hax ▸ List.mem_cons_self _ _
        · exact List.mem_cons_of_mem _
            (List.mem_filter.mpr ⟨ih.mpr h, by simp [hax]⟩)

lemma nodup_dedupKeepFirst (l : List Nat) :
    (dedupKeepFirst l).Nodup := by
  induction l with
  | nil => simp [dedupKeepFirst]
  | cons x xs ih =>
    rw [dedupKeepFirst]
    refine List.nodup_cons.mpr ⟨?_, ih.filter _⟩
    intro hmem
    have := (List.mem_filter.mp hmem).2
    simp at this

/-! ## Lemmas about chunks -/

lemma chunksF_congr {α : Type} (n : Nat) :
    ∀ (f1 f2 : Nat) (l : List α), l.length ≤ f1 → l.length ≤ f2 →
      chunksF f1 n l = chunksF f2 n l := by
  intro f1
  induction f1 with
  | zero =>
    intro f2 l h1 _
    have : l = [] := List.eq_nil_of_length_eq_zero (Nat.le_zero.mp h1)
    subst this
    cases f2 <;> simp [chunksF]
  | succ f1 ih =>
    intro f2 l h1 h2
    cases l with
    | nil => cases f2 <;> simp [chunksF]
    | cons x xs =>
      cases f2 with
      | zero => simp at h2
      | succ f2 =>
        simp only [chunksF, List.cons.injEq, true_and]
        apply ih
        · simp only [List.length_drop]
          simp only [List.length_cons] at h1
          omega
        · simp only [List.length_drop]
          simp only [List.length_cons] at h2
          omega

lemma chunks_nil {α : Type} (n : Nat) : chunks n ([] : List α) = [] := rfl

lemma chunks_cons {α : Type} (n : Nat) (x : α) (xs : List α) :
    chunks n (x :: xs) =
      (x :: xs.take (n - 1)) :: chunks n (xs.drop (n - 1)) := by
  show chunksF (x :: xs).length n (x :: xs) = _
  simp only [List.length_cons, chunksF, List.cons.injEq, true_and]
  apply chunksF_congr
  · simp only [List.length_drop]; omega
  · exact le_rfl

/-- The batches partition the input. -/
lemma chunks_flatten {α : Type} (n : Nat) (l : List α) :
    (chunks n l).flatten = l := by
  suffices h : ∀ (len : Nat) (l2 : List α), l2.length = len →
      (chunks n l2).flatten = l2 from h _ l rfl
  intro len
  induction len using Nat.strong_induction_on with
  | _ len ih =>
    intro l2 hl
    cases l2 with
    | nil => simp [chunks_nil]
    | cons x xs =>
      rw [chunks_cons]
      simp only [List.flatten_cons, List.cons_append, List.cons.injEq, true_and]
      rw [ih (xs.drop (n - 1)).length ?_ _ rfl]
      · exact List.take_append_drop _ xs
      · subst hl
        simp only [List.length_drop, List.length_cons]
        omega

/-- Every batch is nonempty and no longer than the batch size. -/
lemma chunks_bounds {α : Type} (n : Nat) (hn : 0 < n) (l : List α) :
    ∀ b ∈ chunks n l, b ≠ [] ∧ b.length ≤ n := by
  suffices h : ∀ (len : Nat) (l2 : List α), l2.length = len →
      ∀ b ∈ chunks n l2, b ≠ [] ∧ b.length ≤ n from h _ l rfl
  intro len
  induction len using Nat.strong_induction_on with
  | _ len ih =>
    intro l2 hl
    cases l2 with
    | nil => simp [chunks_nil]
    | cons x xs =>
      rw [chunks_cons]
      intro b hb
      rcases List.mem_cons.mp hb with hb | hb
      · subst hb
        refine ⟨by simp, ?_⟩
        simp only [List.length_cons, List.length_take]
        omega
      · exact ih (xs.drop (n - 1)).length
          (by subst hl; simp only [List.length_drop, List.length_cons]; omega)
          _ rfl b hb

/-! ## Search correctness for wildcard-free text -/

lemma sqlLike_eq_decide (x text : String) (hw : NoWild text) :
    sqlLike x (likePattern text) = decide (text.data <:+: x.data) := by
  rw [Bool.eq_iff_iff, sqlLike_likePattern_iff x text hw, decide_eq_true_eq]

lemma searchMatches_eq_entryMatches (text : String) (hw : NoWild text)
    (e : Entry) : searchMatches text e = entryMatchesText text e := by
  unfold searchMatches entryMatchesText likeOpt
  cases e.body <;> cases e.source <;>
    simp [sqlLike_eq_decide _ _ hw]

/-- The heart of claims C2 and C3: for wildcard-free query text,
`search` satisfies the spec's substring contract. -/
lemma searchSpec_of_noWild (s : Store) (text : String) (limit : Nat)
    (hw : NoWild text) : SearchSpec s text limit := by
  have hbridge : ∀ e : Entry, searchMatches text e = entryMatchesText text e :=
    searchMatches_eq_entryMatches text hw
  unfold SearchSpec search
  have hcount : (s.entries.filter (searchMatches text)).length =
      s.entries.countP (entryMatchesText text) := by
    rw [← List.countP_eq_length_filter]
    exact List.countP_congr fun e _ => by rw [hbridge e]
  refine ⟨?_, ?_, ?_, ?_, ?_⟩
  · intro e he
    have h1 : e ∈ List.insertionSort newestFirst
        (s.entries.filter (searchMatches text)) := List.take_subset _ _ he
    have h2 := mem_sort.mp h1
    obtain ⟨h3, h4⟩ := List.mem_filter.mp h2
    refine ⟨h3, ?_⟩
    rw [← hbridge e]
    exact h4
  · exact List.Pairwise.sublist (List.take_sublist _ _)
      (pairwise_sort_newestFirst _)
  · rw [List.length_take, length_sort, hcount]
  · intro hcnt e he hmatch
    have h2 : e ∈ s.entries.filter (searchMatches text) :=
      List.mem_filter.mpr ⟨he, by rw [hbridge e]; exact hmatch⟩
    have h3 := mem_sort
      (r := newestFirst) (l := s.entries.filter (searchMatches text)) |>.mpr h2
    have hlen : (List.insertionSort newestFirst
        (s.entries.filter (searchMatches text))).length ≤ limit := by
      rw [length_sort, hcount]
      exact hcnt
    rw [List.take_of_length_le hlen]
    exact h3
  · intro e he hmatch hnotin r hr
    have h2 : e ∈ s.entries.filter (searchMatches text) :=
      List.mem_filter.mpr ⟨he, by rw [hbridge e]; exact hmatch⟩
    have h3 := mem_sort
      (r := newestFirst) (l := s.entries.filter (searchMatches text)) |>.mpr h2
    set srt := List.insertionSort newestFirst
      (s.entries.filter (searchMatches text)) with hsrt
    have h4 : e ∈ srt.take limit ++ srt.drop limit := by
      rw [List.take_append_drop]
      exact h3
    rcases List.mem_append.mp h4 with h5 | h5
    · exact absurd h5 hnotin
    · exact pairwise_take_drop (pairwise_sort_newestFirst _) limit r hr e h5

/-! ## Claim theorems -/

/-- Claim C3, counterexample: with query text containing the LIKE
wildcard `%`, `search` returns an entry whose title, body and source
do not contain the text as a literal substring, so "returns exactly
the entries whose title OR body OR source contains the text as a
case-sensitive substring" fails for such texts. -/
theorem claim_C3_counterexample :
    search storeAXB "a%b" 10 = [entryAXB] ∧
    ¬ ("a%b".data <:+: entryAXB.title.data) ∧
    entryAXB.body = none ∧ entryAXB.source = none ∧
    entryAXB ∈ storeAXB.entries :=
  ⟨rfl, by decide, rfl, rfl,
    show entryAXB ∈ [entryAXB] from List.mem_singleton.mpr rfl⟩

/-- Claim C3 (amended): for every store state, every query text free
of the LIKE metacharacters `%` and `_`, and every limit,
`search(text, limit)` returns exactly the entries whose title OR body
OR source contains the text as a case-sensitive substring, ordered
newest first, truncated to at most `limit` entries. -/
theorem claim_C3_amended (s : Store) (text : String) (limit : Nat)
    (hw : NoWild text) : SearchSpec s text limit :=
  searchSpec_of_noWild s text limit hw

theorem claim_C3_witness : SearchSpec storeAXB "aXb" 10 :=
  claim_C3_amended storeAXB "aXb" 10 (by decide)

/-- Claim C2: with the vector index unavailable, `semantic` fails with
the capability error and `reindex` with the configuration error (per
the spec's §7 classification of the code's raise sites), never a
generic error; `search` still returns correct substring matches; and
`semantic` with no provider configured also fails with an error the
spec classifies as CapabilityError. -/
theorem claim_C2 (s : Store) (embedQ : Option (List ℚ))
    (nearest : List (Nat × ℚ)) (gw : List String → Option (List (List ℚ)))
    (text : String) (limit : Nat) (hv : s.vecLoaded = false)
    (hw : NoWild text) : ErrorSpec s embedQ nearest gw text limit := by
  refine ⟨?_, ?_, ?_, ?_, ?_, searchSpec_of_noWild s text limit hw⟩
  · intro hp
    constructor <;> simp [semanticRun, reindex, hp, hv]
  · intro hp
    constructor <;> simp [semanticRun, reindex, hp]
  · intro e he
    cases hp : s.hasProvider with
    | false =>
      simp [semanticRun, hp] at he
      subst he
      exact ⟨rfl, rfl⟩
    | true =>
      simp [semanticRun, hp, hv] at he
      subst he
      exact ⟨rfl, rfl⟩
  · intro e he
    cases hp : s.hasProvider with
    | false =>
      simp [reindex, hp] at he
      subst he
      exact ⟨rfl, rfl⟩
    | true =>
      simp [reindex, hp, hv] at he
      subst he
      exact ⟨rfl, rfl⟩
  · intro s2 hp2
    exact ⟨by simp [semanticRun, hp2], rfl⟩

theorem claim_C2_witness : ErrorSpec storeAXB none [] gwFailAll "aXb" 10 :=
  claim_C2 storeAXB none [] gwFailAll "aXb" 10 rfl (by decide)

/-- Claim C10: `%` in the query text acts as a LIKE wildcard, not a
literal character, in `search`, in `think`'s keyword pool, and in
`query`'s tag filter: concrete stores and inputs where an entry is
returned although the input is not a literal substring of any
searched column (nor of the serialized tag list). -/
theorem claim_C10 :
    (search storeAXB "a%b" 10 = [entryAXB] ∧
      ¬ ("a%b".data <:+: entryAXB.title.data) ∧
      entryAXB.body = none ∧ entryAXB.source = none) ∧
    ((think storeAXB "a%b" none 10).map Prod.fst = [entryAXB] ∧
      kwPoolIds storeAXB "a%b" 10 = [entryAXB.id]) ∧
    (queryFn storeTagAXB "all" 20 none (some "a%b") = [entryTagAXB] ∧
      ¬ ("a%b".data <:+: (serializeTags entryTagAXB.tags).data)) :=
  ⟨⟨rfl, by decide, rfl, rfl⟩, ⟨rfl, rfl⟩, ⟨rfl, by decide⟩⟩

/-- Claim C7, counterexample: the tag value `"ed"` occurs literally in
the serialized tag list `["fed","macro"]`, yet the tag filter does not
match — the code matches the QUOTED tag, so the claimed
"matches iff the literal tag string occurs anywhere in the serialized
tag list" (and its `"ed"`-inside-`"fed"` over-match example) is
false. -/
theorem claim_C7_counterexample :
    queryFn storeFed "all" 20 none (some "ed") = [] ∧
    ("ed".data <:+: (serializeTags entryFed.tags).data) ∧
    entryFed ∈ storeFed.entries :=
  ⟨rfl, by decide, show entryFed ∈ [entryFed] from List.mem_singleton.mpr rfl⟩

/-- Claim C7 (amended): for a nonempty tag value free of LIKE
wildcards, the tag filter matches an entry iff the tag WRAPPED IN
DOUBLE QUOTES occurs as a raw substring of the serialized tag list
(so `"ed"` does not over-match `"fed"`, though a tag that is a full
element-boundary substring, or one containing wildcards, still
over-matches). -/
theorem claim_C7_amended (s : Store) (t : String) (limit : Nat)
    (ht : t ≠ "") (hw : NoWild t) : TagFilterSpec s t limit := by
  have hiff : ∀ e : Entry, tagMatches t e = true ↔ quotedTagInfix t e = true := by
    intro e
    unfold tagMatches quotedTagInfix
    rw [decide_eq_true_eq]
    unfold sqlLike
    have hdata : (tagLikePattern t).data =
        '%' :: (('"' :: t.data ++ ['"']) ++ ['%']) := by
      simp [tagLikePattern, String.data_append]
    have hq : ("\"" ++ t ++ "\"").data = '"' :: t.data ++ ['"'] := by
      simp [String.data_append]
    rw [hdata, hq]
    apply likeMatch_infix
    · intro hmem
      rcases List.mem_cons.mp hmem with h | hmem2
      · exact absurd h (by decide)
      · rcases List.mem_append.mp hmem2 with h | h
        · exact hw.1 h
        · exact absurd (List.mem_singleton.mp h) (by decide)
    · intro hmem
      rcases List.mem_cons.mp hmem with h | hmem2
      · exact absurd h (by decide)
      · rcases List.mem_append.mp hmem2 with h | h
        · exact hw.2 h
        · exact absurd (List.mem_singleton.mp h) (by decide)
  refine ⟨hiff, ?_⟩
  intro e he
  unfold queryFn at he
  have h1 := List.take_subset _ _ he
  have h2 := mem_sort.mp h1
  have h3 := (List.mem_filter.mp h2).2
  simp only [Bool.and_eq_true] at h3
  have h4 := h3.2
  rw [if_neg ht] at h4
  exact (hiff e).mp h4

theorem claim_C7_witness : TagFilterSpec storeFed "fed" 20 :=
  claim_C7_amended storeFed "fed" 20 (by decide) (by decide)

/-- Claim C9, counterexample: `resolveTrade` is an unconditional
UPDATE, so resolving an already-resolved trade changes its outcome,
pnl and resolved timestamp again — "once a trade is resolved, no
subsequent operation changes its outcome, pnl, or resolved timestamp"
fails. -/
theorem claim_C9_counterexample :
    tradeStore1.trades.map (fun t => (t.outcome, t.pnlCents, t.resolvedAt)) =
      [(some "win", some 350, some 2)] ∧
    tradeStore2 = resolveTrade tradeStore1 1 "loss" (-100) 3 ∧
    tradeStore2.trades.map (fun t => (t.outcome, t.pnlCents, t.resolvedAt)) =
      [(some "loss", some (-100), some 3)] :=
  ⟨rfl, rfl, rfl⟩

/-- Claim C9 (amended): a trade is created open (outcome, pnl and
resolved timestamp all null); `resolveTrade` stamps all three on the
targeted trade; and no journal operation re-opens a resolved trade —
its outcome stays non-null — although a second `resolveTrade` may
overwrite the stamped values. -/
theorem claim_C9_amended (ts : TradeStore) (d : TradeData) (now id : Nat)
    (oc : String) (pnl : Int) (now2 : Nat) (op : TradeOp) :
    TradeLifecycleSpec ts d now id oc pnl now2 op := by
  refine ⟨⟨_, rfl, rfl, rfl, rfl, rfl⟩, ?_, ?_⟩
  · intro t ht hid
    unfold resolveTrade
    refine List.mem_map.mpr ⟨t, ht, ?_⟩
    rw [if_pos hid]
  · intro t ht hres
    cases op with
    | addT d2 now3 =>
      refine ⟨t, ?_, rfl, hres⟩
      unfold applyTradeOp addTrade
      exact List.mem_append_left _ ht
    | resolveT id2 oc2 pnl2 now3 =>
      refine ⟨(if t.id = id2 then
          { t with outcome := some oc2, pnlCents := some pnl2,
                   resolvedAt := some now3 }
        else t), ?_, ?_, ?_⟩
      · unfold applyTradeOp resolveTrade
        exact List.mem_map.mpr ⟨t, ht, rfl⟩
      · by_cases hid : t.id = id2 <;> simp [hid]
      · by_cases hid : t.id = id2 <;> simp [hid, hres]

theorem claim_C9_witness :
    TradeLifecycleSpec tradeStore1 tradeDataAAPL 5 1 "win" 350 6
      (TradeOp.resolveT 1 "loss" (-100) 7) :=
  claim_C9_amended tradeStore1 tradeDataAAPL 5 1 "win" 350 6
    (TradeOp.resolveT 1 "loss" (-100) 7)

/-- Claim C4: with a title present the entry write succeeds and is
durable regardless of the embedding step; any gateway failure (or
missing capability, or empty reply) is absorbed, the entry stays
persisted without a vector, and no error reaches the caller. -/
theorem claim_C4 (s : Store) (category : String) (d : AddData)
    (gw : List String → Option (List (List ℚ))) (now : Nat)
    (h : d.title ≠ "") : AddSpec s category d gw now := by
  unfold AddSpec add
  rw [if_neg h]
  by_cases hpv : (s.hasProvider && s.vecLoaded) = true
  · rw [if_pos hpv]
    obtain ⟨hp, hv⟩ := Bool.and_eq_true .. |>.mp hpv
    rcases hgw : gw [composeText d.title d.body] with _ | vs
    · exact ⟨_, rfl, rfl, rfl, rfl, rfl, fun i _ => rfl, fun _ => rfl⟩
    · cases vs with
      | nil => exact ⟨_, rfl, rfl, rfl, rfl, rfl, fun i _ => rfl, fun _ => rfl⟩
      | cons v vs2 =>
        refine ⟨_, rfl, rfl, rfl, rfl, rfl, ?_, ?_⟩
        · intro i hi
          exact lookup_append_single s.vectors s.nextId v hi
        · intro hfail
          simp [hp, hv, hgw] at hfail
  · rw [if_neg hpv]
    exact ⟨_, rfl, rfl, rfl, rfl, rfl, fun i _ => rfl, fun _ => rfl⟩

theorem claim_C4_witness : AddSpec storeAXB "market" addDataT gwFailAll 5 :=
  claim_C4 storeAXB "market" addDataT gwFailAll 5 (by decide)

lemma contains_iff_mem (l : List Nat) (a : Nat) :
    l.contains a = true ↔ a ∈ l := by
  induction l with
  | nil => simp
  | cons x xs ih =>
    by_cases h : a = x
    · subst h
      simp
    · simp [h, ih]

/-- Claim C6: on the success path (provider configured, index
available, query embedded), `semantic` assigns each result
`similarity = 1 / (1 + distance)`, returns the fetched entries sorted
descending by similarity, fetches exactly the stored entries whose ids
the index reply names, and returns an empty sequence — not an error —
when the index reply is empty. (`nearest` stands for the index reply
to the `LIMIT limit` nearest-by-distance query.) -/
theorem claim_C6 (s : Store) (qv : List ℚ) (nearest : List (Nat × ℚ))
    (hp : s.hasProvider = true) (hv : s.vecLoaded = true) :
    SemanticSpec s qv nearest := by
  unfold SemanticSpec semanticRun
  simp only [hp, hv, Bool.not_true, Bool.false_eq_true, if_false]
  by_cases hne : nearest.isEmpty
  · rw [if_pos hne]
    have hnil : nearest = [] := List.isEmpty_iff.mp hne
    refine ⟨[], rfl, fun _ => rfl, by simp, ?_, by simp⟩
    intro e _ hid
    rw [hnil] at hid
    simp at hid
  · rw [if_neg hne]
    refine ⟨_, rfl, ?_, ?_, ?_, pairwise_sort_descBySnd _⟩
    · intro hnil
      rw [hnil] at hne
      simp at hne
    · intro pr hpr
      have h1 := mem_sort.mp hpr
      obtain ⟨e, he, rfl⟩ := List.mem_map.mp h1
      obtain ⟨he1, he2⟩ := List.mem_filter.mp he
      have hid : e.id ∈ nearest.map Prod.fst :=
        (contains_iff_mem _ _).mp he2
      obtain ⟨d, hd⟩ := Option.isSome_iff_exists.mp
        ((lookup_isSome_iff nearest e.id).mpr hid)
      exact ⟨he1, d, hd, by rw [hd, Option.getD_some]⟩
    · intro e he hid
      refine ⟨_, mem_sort.mpr (List.mem_map.mpr ⟨e, ?_, rfl⟩)⟩
      exact List.mem_filter.mpr ⟨he, (contains_iff_mem _ _).mpr hid⟩

theorem claim_C6_witness : SemanticSpec storeOne [0] [(1, 3)] :=
  claim_C6 storeOne [0] [(1, 3)] rfl rfl

/-! ## Lemmas about the reindex batch fold -/

lemma lookup_isSome_upsertVec (ve : List (Nat × List ℚ)) (j : Nat)
    (v : List ℚ) (i : Nat) :
    (((upsertVec ve j v).lookup i).isSome = true) ↔
      ((ve.lookup i).isSome = true ∨ i = j) := by
  unfold upsertVec
  by_cases hj : (ve.lookup j).isSome = true
  · rw [if_pos hj]
    have hkeys : ((ve.map fun p => if p.1 = j then (j, v) else p).map
        Prod.fst) = ve.map Prod.fst := by
      rw [List.map_map]
      apply List.map_congr_left
      intro p _
      by_cases hp : p.1 = j
      · simp [hp]
      · simp [hp]
    rw [lookup_isSome_iff, lookup_isSome_iff, hkeys]
    constructor
    · exact Or.inl
    · rintro (h | rfl)
      · exact h
      · exact (lookup_isSome_iff ve i).mp hj
  · rw [if_neg hj]
    rw [lookup_isSome_iff, lookup_isSome_iff, List.map_append]
    simp

lemma lookup_isSome_foldl_upsert (pairs : List (Entry × List ℚ)) :
    ∀ (ve : List (Nat × List ℚ)) (i : Nat),
    ((((pairs.foldl (fun ve p => upsertVec ve p.1.id p.2) ve)).lookup i).isSome
        = true) ↔
      ((ve.lookup i).isSome = true ∨ i ∈ pairs.map fun p => p.1.id) := by
  induction pairs with
  | nil => simp
  | cons p ps ih =>
    intro ve i
    simp only [List.foldl_cons, ih, lookup_isSome_upsertVec, List.map_cons,
      List.mem_cons]
    tauto

lemma runBatch_fst (gw : List String → Option (List (List ℚ)))
    (acc : Nat × List (Nat × List ℚ)) (b : List Entry) :
    (runBatch gw acc b).1 =
      acc.1 + (if batchSucceeds gw b = true then b.length else 0) := by
  unfold runBatch batchSucceeds
  cases gw (batchTexts b) with
  | none => simp
  | some vs =>
    by_cases h : b.length ≤ vs.length
    · simp [h]
    · simp [h]

lemma runBatch_lookup (gw : List String → Option (List (List ℚ)))
    (acc : Nat × List (Nat × List ℚ)) (b : List Entry) (i : Nat) :
    ((((runBatch gw acc b).2).lookup i).isSome = true) ↔
      ((acc.2.lookup i).isSome = true ∨
        (batchSucceeds gw b = true ∧ i ∈ b.map Entry.id)) := by
  unfold runBatch batchSucceeds
  cases hg : gw (batchTexts b) with
  | none => simp
  | some vs =>
    dsimp only
    by_cases h : b.length ≤ vs.length
    · have hmap : ((b.zip vs).map fun p => p.1.id) = b.map Entry.id := by
        have h2 : ((b.zip vs).map fun p => p.1.id) =
            ((b.zip vs).map Prod.fst).map Entry.id := by
          rw [List.map_map]
          rfl
        rw [h2, List.map_fst_zip _ _ h]
      rw [if_pos h]
      dsimp only
      rw [lookup_isSome_foldl_upsert, hmap]
      simp only [decide_eq_true h, true_and]
    · rw [if_neg h]
      simp [decide_eq_false h]

lemma foldl_runBatch_fst (gw : List String → Option (List (List ℚ)))
    (bs : List (List Entry)) :
    ∀ acc : Nat × List (Nat × List ℚ),
    (bs.foldl (runBatch gw) acc).1 =
      acc.1 + ((bs.filter (batchSucceeds gw)).map List.length).sum := by
  induction bs with
  | nil => simp
  | cons b bs ih =>
    intro acc
    rw [List.foldl_cons, ih, runBatch_fst, List.filter_cons]
    by_cases h : batchSucceeds gw b = true
    · simp only [h, if_true, List.map_cons, List.sum_cons]
      omega
    · have h2 : batchSucceeds gw b = false := Bool.eq_false_iff.mpr h
      simp only [h2, Bool.false_eq_true, if_false]
      omega

lemma foldl_runBatch_lookup (gw : List String → Option (List (List ℚ)))
    (bs : List (List Entry)) :
    ∀ (acc : Nat × List (Nat × List ℚ)) (i : Nat),
    (((bs.foldl (runBatch gw) acc).2.lookup i).isSome = true) ↔
      ((acc.2.lookup i).isSome = true ∨
        ∃ b ∈ bs, batchSucceeds gw b = true ∧ i ∈ b.map Entry.id) := by
  induction bs with
  | nil => simp
  | cons b bs ih =>
    intro acc i
    rw [List.foldl_cons, ih, runBatch_lookup]
    constructor
    · rintro ((h | h) | ⟨b2, hb2, h2⟩)
      · exact Or.inl h
      · exact Or.inr ⟨b, List.mem_cons_self _ _, h⟩
      · exact Or.inr ⟨b2, List.mem_cons_of_mem _ hb2, h2⟩
    · rintro (h | ⟨b2, hb2, h2⟩)
      · exact Or.inl (Or.inl h)
      · rcases List.mem_cons.mp hb2 with rfl | hb3
        · exact Or.inl (Or.inr h2)
        · exact Or.inr ⟨b2, hb3, h2⟩

/-- Distinct ids across the flattened batches force coinciding
batches. -/
lemma flatten_nodup_ids {l : List (List Entry)}
    (hn : (l.flatten.map Entry.id).Nodup) :
    ∀ b ∈ l, ∀ b2 ∈ l, ∀ x ∈ b, ∀ y ∈ b2, x.id = y.id → b = b2 := by
  induction l with
  | nil => simp
  | cons c cs ih =>
    rw [List.flatten_cons, List.map_append] at hn
    obtain ⟨_, hn2, hdisj⟩ := List.nodup_append.mp hn
    intro b hb b2 hb2 x hx y hy hxy
    rcases List.mem_cons.mp hb with h1 | h1
    · rcases List.mem_cons.mp hb2 with h2 | h2
      · rw [h1, h2]
      · exfalso
        apply hdisj (List.mem_map_of_mem Entry.id (h1 ▸ hx))
        rw [hxy]
        exact List.mem_map_of_mem Entry.id (List.mem_flatten.mpr ⟨b2, h2, hy⟩)
    · rcases List.mem_cons.mp hb2 with h2 | h2
      · exfalso
        apply hdisj (List.mem_map_of_mem Entry.id (h2 ▸ hy))
        rw [← hxy]
        exact List.mem_map_of_mem Entry.id (List.mem_flatten.mpr ⟨b, h1, hx⟩)
      · exact ih hn2 b h1 b2 h2 x hx y hy hxy

lemma missing_ids_nodup {s : Store} (hwf : WF s) :
    ((missingOf s).map Entry.id).Nodup :=
  List.Nodup.sublist (List.Sublist.map Entry.id (List.filter_sublist _))
    hwf.1

/-- Claim C5: `reindex` computes the missing set by left-anti-join and
returns zero work iff it is empty; otherwise it processes the
128-chunks of that set (nonempty, ≤ 128 each, partitioning it), one
gateway call per batch on the ingestion-composed texts, counts exactly
the successful batches, lands a successful batch completely, leaves a
failed batch completely unembedded, preserves existing vectors, and
reports `(embedded, total = |missing|)`. -/
theorem claim_C5 (s : Store) (gw : List String → Option (List (List ℚ)))
    (hp : s.hasProvider = true) (hv : s.vecLoaded = true) (hwf : WF s) :
    ReindexSpec s gw := by
  unfold ReindexSpec reindex
  simp only [hp, hv, Bool.not_true, Bool.false_eq_true, if_false]
  by_cases hm : (missingOf s).isEmpty
  · rw [if_pos hm]
    have hnil : missingOf s = [] := List.isEmpty_iff.mp hm
    refine ⟨0, s, ?_, fun _ => ⟨rfl, by rw [hnil]; rfl, rfl⟩, ?_, ?_, ?_,
      rfl, hp, hv, ?_, ?_, fun i h => h⟩
    · rw [hnil]
      rfl
    · rw [hnil, chunks_nil]
      rfl
    · rw [hnil, chunks_nil]
      simp
    · rw [hnil, chunks_nil]
      simp
    · rw [hnil, chunks_nil]
      simp
    · rw [hnil, chunks_nil]
      simp
  · rw [if_neg hm]
    have hflat := chunks_flatten 128 (missingOf s)
    refine ⟨_, _, rfl, ?_, hflat, chunks_bounds 128 (by norm_num) _, ?_,
      rfl, rfl, rfl, ?_, ?_, ?_⟩
    · intro hnil
      rw [hnil] at hm
      simp at hm
    · rw [foldl_runBatch_fst]
      simp
    · intro b hb hsucc e heb
      show ((_ : List (Nat × List ℚ)).lookup e.id).isSome = true
      rw [foldl_runBatch_lookup]
      exact Or.inr ⟨b, hb, hsucc, List.mem_map_of_mem Entry.id heb⟩
    · intro b hb hfail e heb
      show ((_ : List (Nat × List ℚ)).lookup e.id).isSome = false
      rw [Bool.eq_false_iff]
      intro hsome
      rw [foldl_runBatch_lookup] at hsome
      rcases hsome with h | ⟨b2, hb2, hsucc2, hid2⟩
      · have hem : e ∈ missingOf s :=
          hflat ▸ List.mem_flatten.mpr ⟨b, hb, heb⟩
        have hnh := (List.mem_filter.mp hem).2
        unfold hasVec at hnh
        simp [h] at hnh
      · obtain ⟨y, hy, hyid⟩ := List.mem_map.mp hid2
        have hbb : b = b2 :=
          flatten_nodup_ids (by rw [hflat]; exact missing_ids_nodup hwf)
            b hb b2 hb2 e heb y hy hyid.symm
        rw [← hbb, hfail] at hsucc2
        cases hsucc2
    · intro i hi
      unfold hasVec at hi
      show ((_ : List (Nat × List ℚ)).lookup i).isSome = true
      rw [foldl_runBatch_lookup]
      exact Or.inl hi

theorem claim_C5_witness : ReindexSpec storeOne gwConstVec :=
  claim_C5 storeOne gwConstVec rfl rfl ⟨by decide, by decide⟩

lemma sum_length_filter_le {α : Type} (p : List α → Bool)
    (bs : List (List α)) :
    ((bs.filter p).map List.length).sum ≤ (bs.map List.length).sum := by
  induction bs with
  | nil => simp
  | cons b bs ih =>
    rw [List.filter_cons]
    by_cases h : p b = true
    · simp only [h, if_true, List.map_cons, List.sum_cons]
      omega
    · have h2 : p b = false := Bool.eq_false_iff.mpr h
      simp only [h2, Bool.false_eq_true, if_false, List.map_cons,
        List.sum_cons]
      omega

/-- If the successful batches account for the whole length sum and no
batch is empty, every batch succeeded. -/
lemma all_of_sum_filter_eq {α : Type} (p : List α → Bool)
    (bs : List (List α)) (hne : ∀ b ∈ bs, b ≠ [])
    (heq : ((bs.filter p).map List.length).sum =
      (bs.map List.length).sum) :
    ∀ b ∈ bs, p b = true := by
  induction bs with
  | nil => simp
  | cons b bs ih =>
    intro b2 hb2
    rw [List.filter_cons] at heq
    by_cases h : p b = true
    · rcases List.mem_cons.mp hb2 with rfl | hb3
      · exact h
      · refine ih (fun c hc => hne c (List.mem_cons_of_mem _ hc)) ?_ b2 hb3
        simp only [h, if_true, List.map_cons, List.sum_cons] at heq
        omega
    · exfalso
      have h2 : p b = false := Bool.eq_false_iff.mpr h
      simp only [h2, Bool.false_eq_true, if_false, List.map_cons,
        List.sum_cons] at heq
      have hle := sum_length_filter_le p bs
      have hblen : 0 < b.length :=
        List.length_pos.mpr (hne b (List.mem_cons_self _ _))
      omega

/-- Claim C8 (amended): if the first `reindex` embeds every missing
entry (reports `embedded = total`, i.e. no batch failed), a second
`reindex` with no intervening writes returns
`{embedded: 0, total: 0}`. -/
theorem claim_C8_amended (s : Store)
    (gw gw2 : List String → Option (List (List ℚ))) (emb tot : Nat)
    (s2 : Store) (h1 : reindex s gw = .ok (emb, tot, s2))
    (h2 : emb = tot) : reindex s2 gw2 = .ok (0, 0, s2) := by
  unfold reindex at h1
  by_cases hp : s.hasProvider = true
  case neg => simp [Bool.eq_false_iff.mpr hp] at h1
  by_cases hv : s.vecLoaded = true
  case neg => simp [hp, Bool.eq_false_iff.mpr hv] at h1
  simp only [hp, hv, Bool.not_true, Bool.false_eq_true, if_false] at h1
  by_cases hm : (missingOf s).isEmpty
  · rw [if_pos hm] at h1
    injection h1 with h6
    injection h6 with h3 h6b
    injection h6b with h4 h5
    subst h3
    subst h4
    subst h5
    unfold reindex
    simp [hp, hv, hm]
  · rw [if_neg hm] at h1
    injection h1 with h6
    injection h6 with h3 h6b
    injection h6b with h4 h5
    subst h3
    subst h4
    subst h5
    have hflat := chunks_flatten 128 (missingOf s)
    have e1 : (List.foldl (runBatch gw) (0, s.vectors)
        (chunks 128 (missingOf s))).1 =
        (((chunks 128 (missingOf s)).filter (batchSucceeds gw)).map
          List.length).sum := by
      rw [foldl_runBatch_fst]
      simp
    have e2 : (missingOf s).length =
        ((chunks 128 (missingOf s)).map List.length).sum := by
      conv_lhs => rw [← hflat]
      rw [List.length_flatten]
    have hall : ∀ b ∈ chunks 128 (missingOf s), batchSucceeds gw b = true := by
      refine all_of_sum_filter_eq _ _
        (fun b hb => (chunks_bounds 128 (by norm_num) _ b hb).1) ?_
      omega
    have hmiss2 : missingOf (Store.mk s.entries
        (List.foldl (runBatch gw) (0, s.vectors)
          (chunks 128 (missingOf s))).2 true true s.nextId) = [] := by
      show (s.entries.filter
          (fun e => !(hasVec (Store.mk s.entries
            (List.foldl (runBatch gw) (0, s.vectors)
              (chunks 128 (missingOf s))).2 true true s.nextId) e.id))) = []
      rw [List.filter_eq_nil_iff]
      intro e he
      have he2 : e ∈ s.entries := he
      have hvec : ((List.foldl (runBatch gw) (0, s.vectors)
          (chunks 128 (missingOf s))).2.lookup e.id).isSome = true := by
        by_cases hev : hasVec s e.id = true
        · rw [foldl_runBatch_lookup]
          unfold hasVec at hev
          exact Or.inl hev
        · have hem : e ∈ missingOf s := by
            refine List.mem_filter.mpr ⟨he2, ?_⟩
            rw [Bool.eq_false_iff.mpr hev]
            rfl
          obtain ⟨b, hb, heb⟩ := List.mem_flatten.mp (hflat.symm ▸ hem)
          rw [foldl_runBatch_lookup]
          exact Or.inr ⟨b, hb, hall b hb, List.mem_map_of_mem Entry.id heb⟩
      have hh : hasVec (Store.mk s.entries
          (List.foldl (runBatch gw) (0, s.vectors)
            (chunks 128 (missingOf s))).2 true true s.nextId) e.id
          = true := hvec
      simp [hh]
    unfold reindex
    simp [hp, hv, hmiss2]

theorem claim_C8_amended_witness :
    reindex storeOneEmbedded gwConstVec = .ok (0, 0, storeOneEmbedded) :=
  claim_C8_amended storeOne gwConstVec gwConstVec 1 1 storeOneEmbedded
    rfl rfl

/-- Claim C8, counterexample: a failing gateway makes the first
`reindex` skip its only batch and return the store unchanged, so the
second call returns `(embedded, total) = (0, 1)`, not
`{embedded: 0, total: 0}` — the claimed unconditional idempotence
fails when a batch of the first call fails. -/
theorem claim_C8_counterexample :
    reindex storeOne gwFailAll = .ok (0, 1, storeOne) ∧
    (Except.ok ((0 : Nat), (1 : Nat), storeOne) :
        Except StoreError (Nat × Nat × Store)) ≠ .ok (0, 0, storeOne) :=
  ⟨rfl, by decide⟩

/-! ## Lemmas for hybrid search (claim C1) -/

lemma thinkScored_map_fst (s : Store) (q : String)
    (semLeg : Option (List (Nat × ℚ))) (limit : Nat) :
    (thinkScored s q semLeg limit).map Prod.fst = thinkPool s q semLeg limit := by
  unfold thinkScored
  rw [List.map_map]
  exact List.map_id _

lemma mem_thinkSorted_snd {s : Store} {q : String}
    {semLeg : Option (List (Nat × ℚ))} {limit : Nat} {p : Nat × ℚ}
    (hp : p ∈ thinkSorted s q semLeg limit) :
    p.2 = finalScore (kwPoolIds s q limit) (semPoolScores semLeg) p.1 := by
  have h1 : p ∈ thinkScored s q semLeg limit := mem_sort.mp hp
  obtain ⟨i, _, rfl⟩ := List.mem_map.mp h1
  rfl

lemma thinkSorted_fst_perm (s : Store) (q : String)
    (semLeg : Option (List (Nat × ℚ))) (limit : Nat) :
    ((thinkSorted s q semLeg limit).map Prod.fst).Perm
      (thinkPool s q semLeg limit) := by
  rw [← thinkScored_map_fst s q semLeg limit]
  exact (List.perm_insertionSort _ _).map Prod.fst

lemma thinkSorted_fst_nodup (s : Store) (q : String)
    (semLeg : Option (List (Nat × ℚ))) (limit : Nat) :
    ((thinkSorted s q semLeg limit).map Prod.fst).Nodup :=
  ((thinkSorted_fst_perm s q semLeg limit).nodup_iff).mpr
    (nodup_dedupKeepFirst _)

lemma thinkTopIds_eq_take (s : Store) (q : String)
    (semLeg : Option (List (Nat × ℚ))) (limit : Nat) :
    thinkTopIds s q semLeg limit =
      ((thinkSorted s q semLeg limit).map Prod.fst).take limit := by
  unfold thinkTopIds
  rw [List.map_take]

lemma thinkTopIds_nodup (s : Store) (q : String)
    (semLeg : Option (List (Nat × ℚ))) (limit : Nat) :
    (thinkTopIds s q semLeg limit).Nodup := by
  rw [thinkTopIds_eq_take]
  exact (thinkSorted_fst_nodup s q semLeg limit).sublist
    (List.take_sublist _ _)

lemma thinkTopIds_subset_pool {s : Store} {q : String}
    {semLeg : Option (List (Nat × ℚ))} {limit : Nat} {i : Nat}
    (hi : i ∈ thinkTopIds s q semLeg limit) :
    i ∈ thinkPool s q semLeg limit := by
  rw [thinkTopIds_eq_take] at hi
  exact (thinkSorted_fst_perm s q semLeg limit).mem_iff.mp
    (List.take_subset _ _ hi)

/-- Every id of the union pool references a stored entry (keyword ids
come from the entry table; semantic ids by the index contract). -/
lemma thinkPool_subset_ids {s : Store} {q : String}
    {semLeg : Option (List (Nat × ℚ))} {limit : Nat}
    (hsem : SemLegOK s limit semLeg) :
    ∀ i ∈ thinkPool s q semLeg limit, i ∈ s.entries.map Entry.id := by
  intro i hi
  rw [thinkPool, mem_dedupKeepFirst] at hi
  rcases List.mem_append.mp hi with h | h
  · unfold kwPoolIds at h
    obtain ⟨e, he, rfl⟩ := List.mem_map.mp h
    exact List.mem_map_of_mem Entry.id
      ((List.mem_filter.mp (List.take_subset _ _ he)).1)
  · cases hsl : semLeg with
    | none =>
      rw [hsl] at h
      simp [semPoolScores] at h
    | some vr =>
      rw [hsl] at h
      unfold semPoolScores at h
      rw [List.map_map] at h
      obtain ⟨p, hp, rfl⟩ := List.mem_map.mp h
      exact (hsem vr hsl).2.2 p hp

lemma lookup_thinkSorted {s : Store} {q : String}
    {semLeg : Option (List (Nat × ℚ))} {limit : Nat} {i : Nat}
    (hi : i ∈ (thinkSorted s q semLeg limit).map Prod.fst) :
    (thinkSorted s q semLeg limit).lookup i =
      some (finalScore (kwPoolIds s q limit) (semPoolScores semLeg) i) := by
  obtain ⟨v, hv⟩ := Option.isSome_iff_exists.mp
    ((lookup_isSome_iff _ i).mpr hi)
  have hmem := mem_of_lookup_eq_some hv
  have := mem_thinkSorted_snd hmem
  rw [hv]
  simp only at this
  rw [this]

/-- Counting: with unique entry ids and a duplicate-free id list drawn
from them, `WHERE id IN (ids)` returns exactly `|ids|` rows. -/
lemma length_filter_contains (es : List Entry) :
    ∀ ids : List Nat, (es.map Entry.id).Nodup → ids.Nodup →
      (∀ i ∈ ids, i ∈ es.map Entry.id) →
      (es.filter fun e => ids.contains e.id).length = ids.length := by
  induction es with
  | nil =>
    intro ids _ _ hsub
    cases ids with
    | nil => simp
    | cons i is => exact absurd (hsub i (List.mem_cons_self _ _)) (by simp)
  | cons e es ih =>
    intro ids hE hI hsub
    obtain ⟨hnotmem, hE2⟩ := List.nodup_cons.mp hE
    rw [List.filter_cons]
    by_cases hin : e.id ∈ ids
    · have hc : ids.contains e.id = true := (contains_iff_mem _ _).mpr hin
      simp only [hc, if_true, List.length_cons]
      have heq : es.filter (fun x => ids.contains x.id) =
          es.filter (fun x => (ids.erase e.id).contains x.id) := by
        apply List.filter_congr
        intro x hx
        have hne : x.id ≠ e.id := by
          intro hxe
          exact hnotmem (hxe ▸ List.mem_map_of_mem Entry.id hx)
        rw [Bool.eq_iff_iff, contains_iff_mem, contains_iff_mem]
        exact (List.mem_erase_of_ne hne).symm
      rw [heq, ih (ids.erase e.id) hE2 (hI.erase _) ?_]
      · have hpos : 0 < ids.length := List.length_pos.mpr
          (fun hemp => by rw [hemp] at hin; exact List.not_mem_nil _ hin)
        rw [List.length_erase_of_mem hin]
        omega
      · intro i hi
        have hi2 := List.mem_of_mem_erase hi
        have hine : i ≠ e.id := ((List.Nodup.mem_erase_iff hI).mp hi).1
        rcases List.mem_cons.mp (hsub i hi2) with h | h
        · exact absurd h hine
        · exact h
    · have hc : ids.contains e.id = false := by
        rw [Bool.eq_false_iff]
        intro hcc
        exact hin ((contains_iff_mem _ _).mp hcc)
      simp only [hc, Bool.false_eq_true, if_false]
      refine ih ids hE2 hI ?_
      intro i hi
      rcases List.mem_cons.mp (hsub i hi) with h | h
      · exact absurd (h ▸ hi) hin
      · exact h

/-- Claim C1: hybrid `think` scores every returned id
`0.7 × semanticScore + keywordWeight` over the union of the keyword
pool (substring match on title/body, fetched with `LIMIT 2·limit`,
flat weight `0.3`) and the semantic pool (ids scored
`1/(1+distance)`, empty on failure or missing capability so the call
never aborts), and returns the top `limit` pool ids by descending
final score with the score attached. `hsem` is the index contract for
the semantic reply: unique ids of existing entries, at most
`2·limit` of them. -/
theorem claim_C1 (s : Store) (q : String)
    (semLeg : Option (List (Nat × ℚ))) (limit : Nat) (hwf : WF s)
    (hsem : SemLegOK s limit semLeg) : ThinkSpec s q semLeg limit := by
  unfold ThinkSpec
  refine ⟨?_, ?_, ?_, ?_, ?_⟩
  all_goals
    unfold think
    by_cases htop : (thinkTopIds s q semLeg limit).isEmpty
  -- clause 1, empty
  · simp only [htop, if_true]
    intro pr hpr
    simp at hpr
  -- clause 1, nonempty
  · simp only [htop, Bool.false_eq_true, if_false]
    intro pr hpr
    have h1 := mem_sort.mp hpr
    obtain ⟨e, he, rfl⟩ := List.mem_map.mp h1
    have hid : e.id ∈ thinkTopIds s q semLeg limit :=
      (contains_iff_mem _ _).mp (List.mem_filter.mp he).2
    have hid2 : e.id ∈ (thinkSorted s q semLeg limit).map Prod.fst := by
      rw [thinkTopIds_eq_take] at hid
      exact List.take_subset _ _ hid
    simp only [lookup_thinkSorted hid2, Option.getD_some]
  -- clause 2, empty
  · simp only [htop, if_true]
    intro pr hpr
    simp at hpr
  -- clause 2, nonempty
  · simp only [htop, Bool.false_eq_true, if_false]
    intro pr hpr
    have h1 := mem_sort.mp hpr
    obtain ⟨e, he, rfl⟩ := List.mem_map.mp h1
    have hid : e.id ∈ thinkTopIds s q semLeg limit :=
      (contains_iff_mem _ _).mp (List.mem_filter.mp he).2
    exact ⟨(List.mem_filter.mp he).1, thinkTopIds_subset_pool hid⟩
  -- clause 3, empty
  · simp only [htop, if_true]
    exact List.Pairwise.nil
  -- clause 3, nonempty
  · simp only [htop, Bool.false_eq_true, if_false]
    exact pairwise_sort_descBySnd _
  -- clause 4, empty
  · simp only [htop, if_true, List.length_nil]
    have h0 : thinkTopIds s q semLeg limit = [] := List.isEmpty_iff.mp htop
    rw [thinkTopIds_eq_take] at h0
    rcases List.take_eq_nil_iff.mp h0 with h | h
    · rw [h]
      simp
    · have : thinkPool s q semLeg limit = [] := by
        have hlen := (thinkSorted_fst_perm s q semLeg limit).length_eq
        rw [h] at hlen
        exact List.eq_nil_of_length_eq_zero hlen.symm
      rw [this]
      simp
  -- clause 4, nonempty
  · simp only [htop, Bool.false_eq_true, if_false]
    rw [length_sort, List.length_map]
    rw [length_filter_contains s.entries (thinkTopIds s q semLeg limit)
      hwf.1 (thinkTopIds_nodup s q semLeg limit)
      (fun i hi => thinkPool_subset_ids hsem i (thinkTopIds_subset_pool hi))]
    rw [thinkTopIds_eq_take, List.length_take, List.length_map]
    unfold thinkSorted
    rw [length_sort]
    unfold thinkScored
    rw [List.length_map]
  -- clause 5, empty
  · simp only [htop, if_true]
    intro i _ _ pr hpr
    simp at hpr
  -- clause 5, nonempty
  · simp only [htop, Bool.false_eq_true, if_false]
    intro i hpool hnotres pr hpr
    -- the left-out pool id is not among the top ids
    have hnotty : i ∉ thinkTopIds s q semLeg limit := by
      intro hity
      apply hnotres
      obtain ⟨e, he, heid⟩ := List.mem_map.mp
        (thinkPool_subset_ids hsem i (thinkTopIds_subset_pool hity))
      have herow : e ∈ s.entries.filter
          (fun e => (thinkTopIds s q semLeg limit).contains e.id) :=
        List.mem_filter.mpr ⟨he, (contains_iff_mem _ _).mpr (heid ▸ hity)⟩
      refine List.mem_map.mpr ⟨(e, ((thinkSorted s q semLeg limit).lookup
        e.id).getD 0), ?_, heid⟩
      exact mem_sort.mpr (List.mem_map.mpr ⟨e, herow, rfl⟩)
    -- (i, f i) sits in the dropped part of the sorted pool
    have his : (i, finalScore (kwPoolIds s q limit) (semPoolScores semLeg) i)
        ∈ thinkSorted s q semLeg limit := by
      apply mem_sort.mpr
      exact List.mem_map.mpr ⟨i, hpool, rfl⟩
    have hidrop : (i, finalScore (kwPoolIds s q limit)
        (semPoolScores semLeg) i) ∈
        (thinkSorted s q semLeg limit).drop limit := by
      have hsplit : (i, finalScore (kwPoolIds s q limit)
          (semPoolScores semLeg) i) ∈
          (thinkSorted s q semLeg limit).take limit ++
            (thinkSorted s q semLeg limit).drop limit := by
        rw [List.take_append_drop]
        exact his
      rcases List.mem_append.mp hsplit with h | h
      · exact absurd (List.mem_map_of_mem Prod.fst h) hnotty
      · exact h
    -- pr corresponds to a pair kept in the taken part
    have h1 := mem_sort.mp hpr
    obtain ⟨e, he, rfl⟩ := List.mem_map.mp h1
    have hid : e.id ∈ thinkTopIds s q semLeg limit :=
      (contains_iff_mem _ _).mp (List.mem_filter.mp he).2
    obtain ⟨p, hptake, hpfst⟩ := List.mem_map.mp hid
    have hpsort : p ∈ thinkSorted s q semLeg limit :=
      List.take_subset _ _ hptake
    have hid2 : e.id ∈ (thinkSorted s q semLeg limit).map Prod.fst := by
      rw [thinkTopIds_eq_take] at hid
      exact List.take_subset _ _ hid
    have hpeq : p.2 = ((thinkSorted s q semLeg limit).lookup e.id).getD 0 := by
      rw [lookup_thinkSorted hid2, Option.getD_some]
      rw [mem_thinkSorted_snd hpsort, hpfst]
    have hle := pairwise_take_drop (pairwise_sort_descBySnd
      (thinkScored s q semLeg limit)) limit p hptake _ hidrop
    simp only at hle ⊢
    rw [← hpeq]
    exact hle

theorem claim_C1_witness : ThinkSpec storeAXB "aXb" (some [(1, 1)]) 10 :=
  claim_C1 storeAXB "aXb" (some [(1, 1)]) 10 ⟨by decide, by decide⟩
    (fun vr hvr => by
      cases hvr
      refine ⟨by decide, by decide, ?_⟩
      intro p hp
      rcases List.mem_singleton.mp hp with rfl
      decide)

end OpenIntel
